import Mathlib

/-!
Verification of the gomtb-manifest core against its natural-language
specification: a shallow embedding, in Lean 4, of the capability-requirement
grammar (xmlcetypes.go), the transitive dependency resolver (xmlgeneric.go),
the disk cache's binary format and read/write/get paths (netcache.go), the
SuperManifest dependency lookups (xmltypes.go), and the fetch orchestrator's
synchronization skeleton (netcache.go), together with theorems settling the
frozen claims about them.

Go byte strings are modelled as `List Char` (the inputs of interest are
ASCII, where Go's byte-wise scans and Lean's char lists coincide); raw byte
payloads as `List Nat` with each byte below 256.
-/

namespace GoMtb

/-! ## Go string helpers (strings.Fields, strings.TrimSpace, strings.Split) -/

/-- The whitespace Go's `unicode.IsSpace` recognizes, restricted to ASCII:
space, tab, newline, vertical tab, form feed, carriage return. -/
def isGoSpace (c : Char) : Bool :=
  c = ' ' || c = '\t' || c = '\n' || c = '\x0b' || c = '\x0c' || c = '\r'

/-- Accumulator for `goFields`: `cur` holds the current field reversed. -/
def goFieldsAux : List Char → List Char → List String
  | [], cur => if cur.isEmpty then [] else [String.mk cur.reverse]
  | c :: cs, cur =>
    if isGoSpace c then
      if cur.isEmpty then goFieldsAux cs [] else String.mk cur.reverse :: goFieldsAux cs []
    else goFieldsAux cs (c :: cur)

/-- Go `strings.Fields`: split around runs of whitespace, no empty fields. -/
def goFields (s : List Char) : List String := goFieldsAux s []

/-- Go `strings.TrimSpace`: drop leading and trailing whitespace. -/
def goTrimSpace (s : List Char) : List Char :=
  ((s.dropWhile isGoSpace).reverse.dropWhile isGoSpace).reverse

/-- Go `strings.Split(s, ",")`: comma-separated pieces (an empty input gives
one empty piece, as in Go). -/
def goSplitComma (s : List Char) : List (List Char) := s.splitOn ','

/-! ## Capability requirements (src/mtbmanifest/xmlcetypes.go) -/

/-- `CapabilityRequirement` of xmlcetypes.go: groups of tokens; tokens within
a group are OR'd, groups are AND'd; `IsV2` records the surface syntax. -/
structure CapabilityRequirement where
  Groups : List (List String)
  IsV2 : Bool
deriving Repr, DecidableEq

/-- `addPlainCapabilities`: each whitespace-separated field of `text` becomes
its own single-token group, appended in order. -/
def addPlainCapabilities (groups : List (List String)) (text : List Char) : List (List String) :=
  groups ++ (goFields text).map (fun field => [field])

/-- `parseV1Capabilities`: space-delimited tokens, one singleton group each. -/
def parseV1Capabilities (capString : List Char) : CapabilityRequirement :=
  { Groups := (goFields capString).map (fun field => [field]), IsV2 := false }

/-- One bracket group of `parseV2Capabilities`: split the bracket's content on
commas, trim each piece, drop the empty ones. -/
def cleanBracketGroup (cur : List Char) : List String :=
  (goSplitComma cur).filterMap (fun part =>
    let trimmed := goTrimSpace part
    if trimmed.isEmpty then none else some (String.mk trimmed))

/-- The byte-by-byte scan of `parseV2Capabilities` (xmlcetypes.go lines
104-147): `inBracket` is the single state bit, `cur` the pending run of
ordinary characters, `groups` the groups emitted so far.  `[` always flushes
the pending run as plain singleton groups and enters bracket mode; `]` in
bracket mode emits the comma-split group (dropped when it cleans to nothing)
and leaves bracket mode, and outside bracket mode is simply discarded;
space, tab, newline and carriage return flush the pending run outside
brackets and are ignored inside; every other character joins `cur`. -/
def parseV2Scan : List Char → Bool → List Char → List (List String) → List (List String)
  | [], _, cur, groups =>
    if cur.isEmpty then groups else addPlainCapabilities groups cur
  | ch :: rest, inBracket, cur, groups =>
    if ch = '[' then
      parseV2Scan rest true []
        (if cur.isEmpty then groups else addPlainCapabilities groups cur)
    else if ch = ']' then
      if inBracket then
        let cleaned := cleanBracketGroup cur
        parseV2Scan rest false []
          (if cleaned.isEmpty then groups else groups ++ [cleaned])
      else
        parseV2Scan rest false cur groups
    else if ch = ' ' || ch = '\t' || ch = '\n' || ch = '\r' then
      if inBracket then
        parseV2Scan rest inBracket cur groups
      else
        parseV2Scan rest inBracket []
          (if cur.isEmpty then groups else addPlainCapabilities groups cur)
    else
      parseV2Scan rest inBracket (cur ++ [ch]) groups

/-- `parseV2Capabilities`: run the scan from the empty state; `IsV2 := true`. -/
def parseV2Capabilities (capString : List Char) : CapabilityRequirement :=
  { Groups := parseV2Scan capString false [] [], IsV2 := true }

/-- `ParseCapabilities`: trim; empty gives zero groups; a `[` anywhere selects
the v2 bracketed parser, otherwise the v1 space-delimited parser. -/
def ParseCapabilities (capString : String) : CapabilityRequirement :=
  let trimmed := goTrimSpace capString.data
  if trimmed.isEmpty then { Groups := [], IsV2 := false }
  else if trimmed.contains '[' then parseV2Capabilities trimmed
  else parseV1Capabilities trimmed

/-- `Matches` (xmlcetypes.go lines 188-204): every group must contain at
least one token in the available set (Go's `map[string]bool` lookup, absent
keys reading false, is the function `available`). -/
def Matches (cr : CapabilityRequirement) (available : String → Bool) : Bool :=
  cr.Groups.all (fun group => group.any (fun cap => available cap))

/-- One part of the canonical rendering: a single-token group is rendered
bare, any other group as a parenthesized ` OR `-joined list. -/
def renderGroup : List String → String
  | [g] => g
  | gs => "(" ++ String.intercalate " OR " gs ++ ")"

/-- `String` of CapabilityRequirement (xmlcetypes.go lines 207-221): the
sentinel for zero groups, otherwise the groups rendered and ` AND `-joined. -/
def crString (cr : CapabilityRequirement) : String :=
  if cr.Groups.length = 0 then "(no requirements)"
  else String.intercalate " AND " (cr.Groups.map renderGroup)

/-! ## Dependency graph (src/mtbmanifest/xmlgeneric.go, src/unnamed/part_004) -/

/-- `Dependee` of xmlgeneric.go: a dependency target pinned to a version. -/
structure Dependee where
  ID : String
  Commit : String
deriving Repr, DecidableEq

/-- `DependerVersion`: one version (`Commit`) of a depender with its
dependees. -/
structure DependerVersion where
  Commit : String
  Dependees : List Dependee
deriving Repr, DecidableEq

/-- `Depender`: a component with its per-version dependency records. -/
structure Depender where
  ID : String
  Versions : List DependerVersion
deriving Repr, DecidableEq

/-- `Dependencies`: the root of a dependencies manifest, a flat depender
list.  The lazily built lookup maps are plain functions of this list here. -/
structure Dependencies where
  Dependers : List Depender
deriving Repr, DecidableEq

/-- Lookup through a Go map built by inserting the list's elements in order
under `key` (`m[key(x)] = x`): a later element with the same key overwrites
an earlier one, and a missing key reads as absent. -/
def goMapGet {α : Type} (key : α → String) (l : List α) (k : String) : Option α :=
  l.foldl (fun acc x => if key x = k then some x else acc) none

/-- `Modelled from the spec:` the repository's `Dependencies.GetDependencies`
(the two-level map lookup `ResolveDependencies` calls at xmlgeneric.go line
73) is not among the provided files; its BSP twin is
`BSPDependenciesManifest.GetDependencies` (src/unnamed/part_004 lines 71-78),
and the maps are built exactly as `CreateMaps` there builds them: depender
by `ID`, then version by `Commit`, answering the version's dependee list. -/
def Dependencies.GetDependencies (m : Dependencies) (id ver : String) :
    Option (List Dependee) :=
  match goMapGet (fun d => d.ID) m.Dependers id with
  | none => none
  | some depender =>
    match goMapGet (fun v => v.Commit) depender.Versions ver with
    | none => none
    | some versionEntry => some versionEntry.Dependees

/-- The inner `resolve` closure of `ResolveDependencies` (xmlgeneric.go lines
64-82), with the closed-over state `(visited, allDeps)` passed explicitly
and a fuel argument bounding the nesting depth: an already-visited id
returns the state unchanged; otherwise the id is marked visited and
appended to the result immediately, and when its `(id, ver)` record is
found, the `for _, dep := range deps` loop resolves each dependee in order,
threading the state (the fold).  `resolve_stable` below shows the canonical
fuel `fuelBound` is never exhausted, which is the termination of the Go
recursion. -/
def resolveFuel (m : Dependencies) :
    Nat → String → String → List String × List String → List String × List String
  | 0, _, _, st => st
  | fuel + 1, id, ver, st =>
    if id ∈ st.1 then st
    else
      match m.GetDependencies id ver with
      | none => (id :: st.1, st.2 ++ [id])
      | some deps =>
        deps.foldl (fun st' dep => resolveFuel m fuel dep.ID dep.Commit st')
          (id :: st.1, st.2 ++ [id])

/-- The distinct depender ids of the graph: the keys of `DependersMap`. -/
def graphIds (m : Dependencies) : List String :=
  (m.Dependers.map (fun d => d.ID)).dedup

/-- Enough fuel for the deepest possible recursion: every nesting step
permanently visits a distinct depender id, plus one step for the start. -/
def fuelBound (m : Dependencies) : Nat := (graphIds m).length + 1

/-- `ResolveDependencies` (xmlgeneric.go lines 60-86): depth-first resolution
from `(libraryID, version)` starting from empty state, returning `allDeps`. -/
def ResolveDependencies (m : Dependencies) (libraryID version : String) : List String :=
  (resolveFuel m (fuelBound m) libraryID version ([], [])).2

/-- The depender-id key set of the graph, as a finite set: the keys of
`DependersMap`. -/
def graphIdsFinset (m : Dependencies) : Finset String :=
  (m.Dependers.map (fun d => d.ID)).toFinset

/-- How many graph keys a visited set has not yet seen: the measure that
shrinks at every level of the Go recursion's nesting. -/
def unvisitedCount (m : Dependencies) (v : List String) : Nat :=
  ((graphIdsFinset m).filter (fun x => x ∉ v)).card

/-! ## The cache's binary format (src/mtbmanifest/netcache.go) -/

/-- `compressionThreshold` (netcache.go line 52): 10 KiB. -/
def compressionThreshold : Nat := 10 * 1024

/-- `compressionFlag` (netcache.go line 53): bit 0 of the header flags. -/
def compressionFlag : Nat := 1

/-- `simpleChecksum` (netcache.go lines 479-485): XOR of all bytes. -/
def simpleChecksum (data : List Nat) : Nat :=
  data.foldl (fun sum b => sum ^^^ b) 0

/-- `CacheHeader` as `binary.Write(f, binary.BigEndian, &header)` lays it out
(netcache.go lines 307-313, 387): magic bytes 'M' (77) and 'C' (67), version
1, the flags byte, the URL checksum byte, and the 16-bit URL length
big-endian.  `urlSize` is the already-truncated `uint16` value. -/
def serializeHeader (flags checksum urlSize : Nat) : List Nat :=
  [77, 67, 1, flags, checksum, urlSize / 256 % 256, urlSize % 256]

/-- `writeCache` (netcache.go lines 329-404) as the bytes that end on disk:
gzip is attempted exactly when the payload is over the threshold and its
output kept only when strictly smaller, recording the choice in flag bit 0;
the header, the URL bytes and the chosen payload are concatenated.  The gzip
writer is the external collaborator `compress`.  `uint16(len(urlBytes))`
truncates the stored URL length modulo 2^16. -/
def writeCache (compress : List Nat → List Nat) (urlBytes content : List Nat) : List Nat :=
  let chosen :=
    if content.length > compressionThreshold then
      let compressed := compress content
      if compressed.length < content.length then (compressed, compressionFlag)
      else (content, 0)
    else (content, 0)
  serializeHeader chosen.2 (simpleChecksum urlBytes) (urlBytes.length % 65536)
    ++ urlBytes ++ chosen.1

/-- The URL length the reader decodes from header bytes 5 and 6. -/
def hdrUrlSize (file : List Nat) : Nat :=
  file.getD 5 0 * 256 + file.getD 6 0

/-- `readCache` (netcache.go lines 406-451) over the file's bytes, `none`
for every error return: a short file fails the header read; `io.ReadFull`
fails when fewer than `URLSize` bytes follow the header; the stored URL must
equal the requested one; `validateHeader` (lines 315-327) then checks magic,
version and the URL checksum; finally flag bit 0 selects gzip decompression
(the external collaborator `decompress`, `none` on malformed input) or the
raw bytes. -/
def readCache (decompress : List Nat → Option (List Nat))
    (urlBytes file : List Nat) : Option (List Nat) :=
  if file.length < 7 then none
  else if file.length - 7 < hdrUrlSize file then none
  else if (file.drop 7).take (hdrUrlSize file) ≠ urlBytes then none
  else if ¬(file.getD 0 0 = 77 ∧ file.getD 1 0 = 67) then none
  else if file.getD 2 0 ≠ 1 then none
  else if file.getD 4 0 ≠ simpleChecksum ((file.drop 7).take (hdrUrlSize file)) then none
  else if file.getD 3 0 &&& compressionFlag ≠ 0 then decompress (file.drop (7 + hdrUrlSize file))
  else some (file.drop (7 + hdrUrlSize file))

/-! ## `ManifestCache.Get` and the refresh queue (netcache.go lines 87-137) -/

/-- The cache state `Get` touches for one URL: the on-disk entry (present or
absent), its age by file modification time, the TTL, the URLs in the
`refreshing` map, and the refresh queue's contents (capacity 100). -/
structure MCState where
  entry : Option (List Nat)
  age : Nat
  ttl : Nat
  refreshing : List (List Nat)
  queue : List (List Nat)
deriving Repr, DecidableEq

/-- `queueRefresh` (netcache.go lines 107-120): a URL already in
`refreshing` is dropped; otherwise it is marked refreshing and enqueued,
unless the queue is full, in which case the mark is removed again and the
refresh skipped. -/
def queueRefresh (u : List Nat) (st : MCState) : MCState :=
  if u ∈ st.refreshing then st
  else if st.queue.length < 100 then
    { st with refreshing := u :: st.refreshing, queue := st.queue ++ [u] }
  else st

/-- `Get` (netcache.go lines 87-105): a readable, valid entry is returned
immediately, queueing a background refresh when its age reached the TTL; any
read failure falls to `fetchAndCache` (lines 139-150), which fetches from
the network (`network`, `none` for a failed HTTP GET), writes the cache (a
write error is only logged) and returns the fetched bytes or the error. -/
def mcGet (decompress : List Nat → Option (List Nat))
    (compress : List Nat → List Nat) (u : List Nat) (st : MCState)
    (network : Option (List Nat)) : Option (List Nat) × MCState :=
  match st.entry.bind (readCache decompress u) with
  | some data =>
    (some data, if st.age ≥ st.ttl then queueRefresh u st else st)
  | none =>
    match network with
    | none => (none, st)
    | some fetched => (some fetched, { st with entry := some (writeCache compress u fetched) })

/-- `Close` (netcache.go lines 83-85) is `close(c.refreshQueue)` and nothing
else.  Go's `close` on an already-closed channel is a run-time panic, so the
argument is whether the queue channel is already closed and `none` models
the panic; `some true` is a completed close leaving the channel closed. -/
def mcClose (queueClosed : Bool) : Option Bool :=
  if queueClosed then none else some true

/-! ## SuperManifest dependency lookups (src/mtbmanifest/xmltypes.go) -/

/-- What a Go call can do: return a (possibly nil) value, or panic. -/
inductive GoResult (α : Type) where
  | ok : Option α → GoResult α
  | panicked : GoResult α
deriving Repr, DecidableEq

/-- The slice of `SuperManifest` these lookups read: `dependenciesMap`,
keyed by URL; `some` is a non-nil `*Dependencies` entry, `none` an absent or
nil one. -/
structure SuperManifestDeps where
  dependenciesMap : String → Option Dependencies

/-- `SuperManifest.GetDependencies` (xmltypes.go lines 731-737): an empty or
"N/A" URL answers nil, otherwise the map entry. -/
def smGetDependencies (sm : SuperManifestDeps) (urlStr : String) : Option Dependencies :=
  if urlStr = "" ∨ urlStr = "N/A" then none
  else sm.dependenciesMap urlStr

/-- `GetDependenciesByID` (xmltypes.go lines 746-755), exactly as written:
empty or "N/A" arguments answer nil; then `depManifest :=
sm.GetDependencies(urlStr)` and the test reads `if depManifest != nil {
return nil }`, so a present manifest answers nil, and only an absent one
reaches `depManifest.GetBSP(Id)` - a method call on a nil pointer whose
map-building body dereferences it, a run-time panic (`panicked`). -/
def GetDependenciesByID (sm : SuperManifestDeps) (urlStr Id : String) : GoResult Depender :=
  if Id = "" ∨ (Id = "N/A" ∨ (urlStr = "" ∨ urlStr = "N/A")) then .ok none
  else
    match smGetDependencies sm urlStr with
    | some _ => .ok none
    | none => .panicked

/-! ## The fetch orchestrator's synchronization skeleton
(`FetchAllWithCb`, netcache.go lines 213-255)

The function spawns one goroutine per input item; each acquires a slot on
the `limiter` channel (capacity `maxConcurrent`), performs the cache-backed
fetch, records the result under the mutex, spawns the item's callback
goroutine when a callback was supplied, and releases its slot; the caller
returns only after `wgFetches.Wait()` and `wgCallbacks.Wait()`.  That
synchronization skeleton is embedded as a labeled transition system: one
phase per item, advanced by `acquire` (the `f.limiter <- struct\x7b\x7d`
send, enabled only while fewer than `N` slots are taken), `release` (the
fetch goroutine finishing: result recorded, callback goroutine spawned, the
deferred `<-f.limiter` receive), `callback` (the callback goroutine
finishing, only for items with one), and `ret` (the two waits succeeding:
every fetch goroutine finished and every spawned callback finished). -/

/-- Where one input item stands: goroutine not yet holding a slot; holding a
slot with its fetch in flight; fetch finished and slot released (callback
spawned if supplied); callback finished. -/
inductive FetchPhase where
  | pending
  | fetching
  | fetched
  | done
deriving DecidableEq, Repr

/-- The orchestrator's state over `n` items: each item's phase, and whether
`FetchAllWithCb` has returned to its caller. -/
structure OrchState (n : Nat) where
  phase : Fin n → FetchPhase
  returned : Bool

/-- How many fetches are in flight: items holding a limiter slot. -/
def inFlight {n : Nat} (s : OrchState n) : Nat :=
  (Finset.univ.filter (fun i => s.phase i = FetchPhase.fetching)).card

/-- Advance one item's phase. -/
def setPhase {n : Nat} (s : OrchState n) (i : Fin n) (p : FetchPhase) : OrchState n :=
  { s with phase := Function.update s.phase i p }

/-- The observable events of a run. -/
inductive OrchLabel (n : Nat) where
  | acquire (i : Fin n)
  | release (i : Fin n)
  | callback (i : Fin n)
  | ret
deriving DecidableEq, Repr

/-- One scheduler step of `FetchAllWithCb` under ceiling `N`, with `hasCb i`
recording whether item `i` supplied a callback.  A buffered-channel send
blocks while the buffer is full, so `acquire` is enabled only when fewer
than `N` items hold slots; `ret` is enabled only when every fetch goroutine
has finished and every item with a callback has run it (the two
`WaitGroup.Wait` calls). -/
inductive OrchStep (N : Nat) {n : Nat} (hasCb : Fin n → Bool) :
    OrchLabel n → OrchState n → OrchState n → Prop where
  | acquire (s : OrchState n) (i : Fin n) :
      s.returned = false → s.phase i = FetchPhase.pending → inFlight s < N →
      OrchStep N hasCb (.acquire i) s (setPhase s i FetchPhase.fetching)
  | release (s : OrchState n) (i : Fin n) :
      s.returned = false → s.phase i = FetchPhase.fetching →
      OrchStep N hasCb (.release i) s (setPhase s i FetchPhase.fetched)
  | callback (s : OrchState n) (i : Fin n) :
      s.returned = false → s.phase i = FetchPhase.fetched → hasCb i = true →
      OrchStep N hasCb (.callback i) s (setPhase s i FetchPhase.done)
  | ret (s : OrchState n) :
      s.returned = false →
      (∀ i, if hasCb i then s.phase i = FetchPhase.done
            else s.phase i = FetchPhase.fetched) →
      OrchStep N hasCb .ret s { s with returned := true }

/-- A finite run: the reflexive-transitive closure of `OrchStep`, keeping
the list of labels. -/
inductive OrchRun (N : Nat) {n : Nat} (hasCb : Fin n → Bool) :
    OrchState n → List (OrchLabel n) → OrchState n → Prop where
  | nil (s : OrchState n) : OrchRun N hasCb s [] s
  | cons {s t u : OrchState n} {l : OrchLabel n} {ls : List (OrchLabel n)} :
      OrchStep N hasCb l s t → OrchRun N hasCb t ls u → OrchRun N hasCb s (l :: ls) u

/-- All goroutines spawned, none scheduled yet, caller inside the waits. -/
def orchInit (n : Nat) : OrchState n := ⟨fun _ => FetchPhase.pending, false⟩

/-! # Shared lemmas about the cache format -/

/-- A file whose decoded URL-length field disagrees with the requested URL's
length is rejected: either too few bytes follow the header, or the stored
URL has the wrong length and cannot equal the requested one. -/
theorem readCache_eq_none_of_size (dc : List Nat → Option (List Nat))
    (u file : List Nat) (h : hdrUrlSize file ≠ u.length) :
    readCache dc u file = none := by
  unfold readCache
  split_ifs with h1 h2 h3 h4 h5 h6 h7 <;> try rfl
  all_goals
    have hlen := congrArg List.length (not_not.mp h3)
    simp only [List.length_take, List.length_drop] at hlen
    omega

/-- A file whose checksum byte is not the requested URL's checksum is
rejected: the reader recomputes the checksum of the stored URL, which must
already equal the requested one. -/
theorem readCache_eq_none_of_checksum (dc : List Nat → Option (List Nat))
    (u file : List Nat) (h : file.getD 4 0 ≠ simpleChecksum u) :
    readCache dc u file = none := by
  unfold readCache
  split_ifs with h1 h2 h3 h4 h5 h6 h7 <;> try rfl
  all_goals
    rw [not_not.mp h3] at h6
    exact absurd (not_not.mp h6) h

/-- `writeCache` in closed form: the compression branch is taken exactly
when the payload is over the threshold and gzip strictly shrank it. -/
theorem writeCache_eq (compress : List Nat → List Nat) (u p : List Nat) :
    writeCache compress u p =
      serializeHeader
        (if p.length > compressionThreshold ∧ (compress p).length < p.length
          then compressionFlag else 0)
        (simpleChecksum u) (u.length % 65536)
      ++ u ++
      (if p.length > compressionThreshold ∧ (compress p).length < p.length
        then compress p else p) := by
  unfold writeCache
  by_cases h1 : p.length > compressionThreshold
  · by_cases h2 : (compress p).length < p.length
    · simp [h1, h2]
    · simp [h1, h2]
  · have : ¬(p.length > compressionThreshold ∧ (compress p).length < p.length) :=
      fun hc => h1 hc.1
    simp [h1, this]

/-- Reading a well-formed cache file for its own URL reaches the payload
and dispatches on flag bit 0. -/
theorem readCache_header_url (dc : List Nat → Option (List Nat))
    (u fc : List Nat) (fl : Nat) (hu : u.length < 65536) :
    readCache dc u (serializeHeader fl (simpleChecksum u) (u.length % 65536) ++ u ++ fc) =
      if fl &&& compressionFlag ≠ 0 then dc fc else some fc := by
  have hus : u.length % 65536 = u.length := Nat.mod_eq_of_lt hu
  have hcons : serializeHeader fl (simpleChecksum u) (u.length % 65536) ++ u ++ fc
      = 77 :: 67 :: 1 :: fl :: simpleChecksum u ::
        (u.length % 65536 / 256 % 256) :: (u.length % 65536 % 256) :: (u ++ fc) := by
    simp [serializeHeader]
  rw [hcons]
  have hsize : hdrUrlSize (77 :: 67 :: 1 :: fl :: simpleChecksum u ::
      (u.length % 65536 / 256 % 256) :: (u.length % 65536 % 256) :: (u ++ fc)) = u.length := by
    simp only [hdrUrlSize, List.getD_cons_succ, List.getD_cons_zero]
    omega
  unfold readCache
  rw [hsize]
  simp only [List.length_cons, List.length_append, List.getD_cons_succ, List.getD_cons_zero]
  rw [if_neg (by omega), if_neg (by omega)]
  have hdrop : List.drop 7 (77 :: 67 :: 1 :: fl :: simpleChecksum u ::
      (u.length % 65536 / 256 % 256) :: (u.length % 65536 % 256) :: (u ++ fc)) = u ++ fc := rfl
  rw [hdrop, List.take_left]
  rw [if_neg (by simp)]
  rw [if_neg (by simp)]
  rw [if_neg (by simp)]
  rw [if_neg (by simp)]
  have hdrop2 : List.drop (7 + u.length) (77 :: 67 :: 1 :: fl :: simpleChecksum u ::
      (u.length % 65536 / 256 % 256) :: (u.length % 65536 % 256) :: (u ++ fc))
      = fc := by
    have : List.drop (7 + u.length) (77 :: 67 :: 1 :: fl :: simpleChecksum u ::
        (u.length % 65536 / 256 % 256) :: (u.length % 65536 % 256) :: (u ++ fc))
        = List.drop u.length (u ++ fc) := by
      rw [← List.drop_drop]
      rfl
    rw [this, List.drop_left]
  rw [hdrop2]

/-- The on-disk layout as a cons chain, for positional reasoning. -/
theorem serializeHeader_append (fl cs us : Nat) (u fc : List Nat) :
    serializeHeader fl cs us ++ u ++ fc
      = 77 :: 67 :: 1 :: fl :: cs :: (us / 256 % 256) :: (us % 256) :: (u ++ fc) := by
  simp [serializeHeader]

/-- The URL length a reader decodes from a written header. -/
theorem hdrUrlSize_header (fl cs us : Nat) (u fc : List Nat) :
    hdrUrlSize (serializeHeader fl cs us ++ u ++ fc) = us / 256 % 256 * 256 + us % 256 := by
  rw [serializeHeader_append]
  rfl

/-- Overwriting the checksum byte of a 7-byte header. -/
theorem list_set4 (a0 a1 a2 a3 a4 a5 a6 b : Nat) (rest : List Nat) :
    (a0 :: a1 :: a2 :: a3 :: a4 :: a5 :: a6 :: rest).set 4 b
      = a0 :: a1 :: a2 :: a3 :: b :: a5 :: a6 :: rest := rfl

/-- Overwriting the URL-length high byte of a 7-byte header. -/
theorem list_set5 (a0 a1 a2 a3 a4 a5 a6 b : Nat) (rest : List Nat) :
    (a0 :: a1 :: a2 :: a3 :: a4 :: a5 :: a6 :: rest).set 5 b
      = a0 :: a1 :: a2 :: a3 :: a4 :: b :: a6 :: rest := rfl

/-- Overwriting the URL-length low byte of a 7-byte header. -/
theorem list_set6 (a0 a1 a2 a3 a4 a5 a6 b : Nat) (rest : List Nat) :
    (a0 :: a1 :: a2 :: a3 :: a4 :: a5 :: a6 :: rest).set 6 b
      = a0 :: a1 :: a2 :: a3 :: a4 :: a5 :: b :: rest := rfl

/-- Replacing the checksum byte or either URL-length byte of a written entry
with any other byte value makes the read fail: a changed checksum byte no
longer matches the URL's checksum, and a changed length byte decodes to a
URL length that cannot equal the requested URL's. -/
theorem readCache_tampered (dc : List Nat → Option (List Nat))
    (u fc : List Nat) (fl i b : Nat)
    (hi : i = 4 ∨ i = 5 ∨ i = 6) (hb : b < 256)
    (hne : b ≠ (serializeHeader fl (simpleChecksum u) (u.length % 65536) ++ u ++ fc).getD i 0) :
    readCache dc u
      ((serializeHeader fl (simpleChecksum u) (u.length % 65536) ++ u ++ fc).set i b) = none := by
  rw [serializeHeader_append] at hne ⊢
  rcases hi with h4 | h5 | h6
  · subst h4
    rw [list_set4]
    apply readCache_eq_none_of_checksum
    simp only [List.getD_cons_succ, List.getD_cons_zero] at hne ⊢
    exact hne
  · subst h5
    rw [list_set5]
    apply readCache_eq_none_of_size
    simp only [hdrUrlSize, List.getD_cons_succ, List.getD_cons_zero] at hne ⊢
    omega
  · subst h6
    rw [list_set6]
    apply readCache_eq_none_of_size
    simp only [hdrUrlSize, List.getD_cons_succ, List.getD_cons_zero] at hne ⊢
    omega

/-! # The claims -/

/-- C5.  `Matches` is satisfaction of the conjunction of disjunctions: true
iff every group has at least one token in the available set; and the empty
capability string parses to zero groups, which match every available set. -/
theorem C5_capability_matching :
    (∀ (cr : CapabilityRequirement) (available : String → Bool),
        Matches cr available = true ↔
          ∀ group ∈ cr.Groups, ∃ tok ∈ group, available tok = true) ∧
    ∀ available : String → Bool, Matches (ParseCapabilities "") available = true := by
  constructor
  · intro cr available
    simp [Matches, List.all_eq_true, List.any_eq_true]
  · intro available
    rfl

/-- C8.  The concrete scenario: parsing
"hal [psoc6,t2gbe] [flash_2048k,flash_1024k]" matches
\x7bhal, t2gbe, flash_1024k\x7d, does not match \x7bhal, t2gbe, flash_512k\x7d, and
renders canonically; in general the rendering is the sentinel for an empty
requirement and otherwise the ` AND `-join of the groups, single-token
groups bare and multi-token groups as parenthesized ` OR `-joins
(`renderGroup`). -/
theorem C8_concrete_scenario :
    (Matches (ParseCapabilities "hal [psoc6,t2gbe] [flash_2048k,flash_1024k]")
        (fun s => s = "hal" || s = "t2gbe" || s = "flash_1024k") = true) ∧
    (Matches (ParseCapabilities "hal [psoc6,t2gbe] [flash_2048k,flash_1024k]")
        (fun s => s = "hal" || s = "t2gbe" || s = "flash_512k") = false) ∧
    (crString (ParseCapabilities "hal [psoc6,t2gbe] [flash_2048k,flash_1024k]") =
        "hal AND (psoc6 OR t2gbe) AND (flash_2048k OR flash_1024k)") ∧
    (∀ cr : CapabilityRequirement, cr.Groups = [] → crString cr = "(no requirements)") ∧
    (∀ cr : CapabilityRequirement, cr.Groups ≠ [] →
        crString cr = String.intercalate " AND " (cr.Groups.map renderGroup)) := by
  refine ⟨by decide, by decide, by decide, ?_, ?_⟩
  · intro cr h
    simp [crString, h]
  · intro cr h
    have : cr.Groups.length ≠ 0 := fun hl => h (List.length_eq_zero.mp hl)
    simp [crString, this]

/-- C3.  The code, not the claim: `Close` is exactly one `close` of the
refresh-queue channel, so the first call completes and stops the worker,
but a second call closes an already-closed channel, which is a run-time
panic in Go (modelled as `none`), not an idempotent no-op. -/
theorem C3_second_close_panics :
    mcClose false = some true ∧ mcClose true = none := by
  constructor <;> rfl

/-- C10.  `GetDependenciesByID` with a non-nil map entry for the URL and a
non-empty, non-"N/A" id returns nil because of the inverted nil test, and
the nil-pointer `GetBSP` dereference is reached exactly on the branch where
`GetDependencies` answered nil. -/
theorem C10_get_dependencies_by_id :
    (∀ (sm : SuperManifestDeps) (urlStr Id : String) (d : Dependencies),
        sm.dependenciesMap urlStr = some d → Id ≠ "" → Id ≠ "N/A" →
        GetDependenciesByID sm urlStr Id = GoResult.ok none) ∧
    (∀ (sm : SuperManifestDeps) (urlStr Id : String),
        GetDependenciesByID sm urlStr Id = GoResult.panicked →
        smGetDependencies sm urlStr = none) := by
  constructor
  · intro sm urlStr Id d hmap hId1 hId2
    by_cases hg : Id = "" ∨ (Id = "N/A" ∨ (urlStr = "" ∨ urlStr = "N/A"))
    · simp [GetDependenciesByID, hg]
    · have hu : ¬(urlStr = "" ∨ urlStr = "N/A") := fun hor => hg (Or.inr (Or.inr hor))
      simp [GetDependenciesByID, hg, smGetDependencies, hu, hmap]
  · intro sm urlStr Id h
    by_cases hg : Id = "" ∨ (Id = "N/A" ∨ (urlStr = "" ∨ urlStr = "N/A"))
    · simp [GetDependenciesByID, hg] at h
    · simp only [GetDependenciesByID, if_neg hg] at h
      cases hsm : smGetDependencies sm urlStr with
      | none => rfl
      | some d => rw [hsm] at h; simp at h

/-- C7.  The write-side compression decision in closed form: gzip output is
stored, and flag bit 0 set, exactly when the payload is strictly over the
10240-byte threshold and the gzip output is strictly smaller than the
payload; in every other case the raw payload is stored with flags 0 (and
for payloads at or under the threshold `compress` is never consulted, since
the result does not mention it). -/
theorem C7_compression_decision :
    ∀ (compress : List Nat → List Nat) (urlBytes content : List Nat),
      writeCache compress urlBytes content =
        serializeHeader
          (if content.length > compressionThreshold ∧
              (compress content).length < content.length then compressionFlag else 0)
          (simpleChecksum urlBytes) (urlBytes.length % 65536)
        ++ urlBytes ++
        (if content.length > compressionThreshold ∧
            (compress content).length < content.length then compress content else content) :=
  fun compress urlBytes content => writeCache_eq compress urlBytes content

/-- C2.  `Get`: a readable, checksum-valid entry is returned as-is whatever
its age; its only state effect is queueing a background refresh when age
reached the TTL, and `queueRefresh` deduplicates (a URL in `refreshing`
leaves the state unchanged; a new one is marked and enqueued while the
queue has room); with no valid entry the network result is persisted via
`writeCache` and returned, and a failed fetch is returned as the error with
the state untouched. -/
theorem C2_stale_while_revalidate :
    (∀ dc cp u st net data, st.entry.bind (readCache dc u) = some data →
        (mcGet dc cp u st net).1 = some data) ∧
    (∀ dc cp u st net data, st.entry.bind (readCache dc u) = some data →
        (mcGet dc cp u st net).2 =
          if st.age ≥ st.ttl then queueRefresh u st else st) ∧
    (∀ u st, u ∈ st.refreshing → queueRefresh u st = st) ∧
    (∀ u st, u ∉ st.refreshing → st.queue.length < 100 →
        queueRefresh u st =
          { st with refreshing := u :: st.refreshing, queue := st.queue ++ [u] }) ∧
    (∀ dc cp u st fetched, st.entry.bind (readCache dc u) = none →
        mcGet dc cp u st (some fetched) =
          (some fetched, { st with entry := some (writeCache cp u fetched) })) ∧
    (∀ dc cp u st, st.entry.bind (readCache dc u) = none →
        mcGet dc cp u st none = (none, st)) := by
  refine ⟨?_, ?_, ?_, ?_, ?_, ?_⟩
  · intro dc cp u st net data h
    unfold mcGet
    rw [h]
  · intro dc cp u st net data h
    unfold mcGet
    rw [h]
  · intro u st h
    unfold queueRefresh
    rw [if_pos h]
  · intro u st h hq
    unfold queueRefresh
    rw [if_neg h, if_pos hq]
  · intro dc cp u st fetched h
    unfold mcGet
    rw [h]
  · intro dc cp u st h
    unfold mcGet
    rw [h]

/-- C4.  Every corruption is a read failure and a read failure is a plain
miss: a truncated header, too few bytes for the stored URL, a stored URL
differing from the requested one, a wrong magic, an unsupported version
byte, or a checksum byte that is not the requested URL's checksum each make
`readCache` answer `none` (the function is total, so no crash); replacing
the checksum byte or either URL-length byte of a written entry with any
other byte value does the same; and whenever the read answers `none`,
`Get` returns exactly the synchronous network fetch's result. -/
theorem C4_corruption_is_a_miss :
    (∀ (dc : List Nat → Option (List Nat)) (u file : List Nat),
        file.length < 7 → readCache dc u file = none) ∧
    (∀ (dc : List Nat → Option (List Nat)) (u file : List Nat),
        file.length - 7 < hdrUrlSize file → readCache dc u file = none) ∧
    (∀ (dc : List Nat → Option (List Nat)) (u file : List Nat),
        (file.drop 7).take (hdrUrlSize file) ≠ u → readCache dc u file = none) ∧
    (∀ (dc : List Nat → Option (List Nat)) (u file : List Nat),
        ¬(file.getD 0 0 = 77 ∧ file.getD 1 0 = 67) → readCache dc u file = none) ∧
    (∀ (dc : List Nat → Option (List Nat)) (u file : List Nat),
        file.getD 2 0 ≠ 1 → readCache dc u file = none) ∧
    (∀ (dc : List Nat → Option (List Nat)) (u file : List Nat),
        file.getD 4 0 ≠ simpleChecksum u → readCache dc u file = none) ∧
    (∀ (cp : List Nat → List Nat) (dc : List Nat → Option (List Nat))
        (u p : List Nat) (i b : Nat),
        (i = 4 ∨ i = 5 ∨ i = 6) → b < 256 → b ≠ (writeCache cp u p).getD i 0 →
        readCache dc u ((writeCache cp u p).set i b) = none) ∧
    (∀ (dc : List Nat → Option (List Nat)) (cp : List Nat → List Nat)
        (u : List Nat) (st : MCState) (net : Option (List Nat)),
        st.entry.bind (readCache dc u) = none → (mcGet dc cp u st net).1 = net) := by
  refine ⟨?_, ?_, ?_, ?_, ?_, ?_, ?_, ?_⟩
  · intro dc u file h
    unfold readCache
    rw [if_pos h]
  · intro dc u file h
    unfold readCache
    split_ifs with h1 h2 h3 h4 h5 h6 h7 <;> rfl
  · intro dc u file h
    unfold readCache
    split_ifs with h1 h2 h3 h4 h5 h6 h7 <;> rfl
  · intro dc u file h
    unfold readCache
    split_ifs with h1 h2 h3 h4 h5 h6 h7 <;> rfl
  · intro dc u file h
    unfold readCache
    split_ifs with h1 h2 h3 h4 h5 h6 h7 <;> rfl
  · intro dc u file h
    exact readCache_eq_none_of_checksum dc u file h
  · intro cp dc u p i b hi hb hne
    rw [writeCache_eq] at hne ⊢
    exact readCache_tampered dc u _ _ i b hi hb hne
  · intro dc cp u st net h
    unfold mcGet
    rw [h]
    cases net <;> rfl

/-- C1, amended with the length bound the 16-bit URL-length field forces:
for every URL of fewer than 65536 bytes and every payload (any size and
compressibility, `compress`/`decompress` being gzip's round-trip contract),
writing then reading returns exactly the payload. -/
theorem C1_cache_roundtrip :
    ∀ (compress : List Nat → List Nat) (dc : List Nat → Option (List Nat)) (u p : List Nat),
      (∀ x, dc (compress x) = some x) → u.length < 65536 →
      readCache dc u (writeCache compress u p) = some p := by
  intro compress dc u p hgz hu
  rw [writeCache_eq]
  by_cases hc : p.length > compressionThreshold ∧ (compress p).length < p.length
  · rw [if_pos hc, if_pos hc, readCache_header_url dc u (compress p) compressionFlag hu]
    rw [if_pos (by decide)]
    exact hgz p
  · rw [if_neg hc, if_neg hc, readCache_header_url dc u p 0 hu]
    rw [if_neg (by decide)]

/-- C1's round trip at a concrete URL and payload, the gzip contract
discharged by the identity codec. -/
theorem C1_cache_roundtrip_witness :
    readCache some [104, 116] (writeCache (fun x => x) [104, 116] [3, 1, 4]) = some [3, 1, 4] :=
  C1_cache_roundtrip (fun x => x) some [104, 116] [3, 1, 4] (fun _ => rfl) (by norm_num)

/-- C1 as frozen is false for a 65536-byte URL: `uint16(len(urlBytes))`
wraps to 0, the reader decodes URL length 0, reads back an empty URL that
cannot equal the requested one, and the entry just written is unreadable. -/
theorem C1_counterexample :
    readCache some (List.replicate 65536 97)
      (writeCache (fun x => x) (List.replicate 65536 97) [7]) = none := by
  apply readCache_eq_none_of_size
  rw [writeCache_eq, hdrUrlSize_header]
  simp only [List.length_replicate]
  norm_num

/-! # Lemmas about `ResolveDependencies` -/

/-- `resolveFuel` at zero fuel, as an equation. -/
theorem resolveFuel_zero (m : Dependencies) (id ver : String)
    (st : List String × List String) : resolveFuel m 0 id ver st = st := rfl

/-- `resolveFuel` at positive fuel, as an equation. -/
theorem resolveFuel_succ (m : Dependencies) (fuel : Nat) (id ver : String)
    (st : List String × List String) :
    resolveFuel m (fuel + 1) id ver st =
      if id ∈ st.1 then st
      else
        match m.GetDependencies id ver with
        | none => (id :: st.1, st.2 ++ [id])
        | some deps =>
          deps.foldl (fun st' dep => resolveFuel m fuel dep.ID dep.Commit st')
            (id :: st.1, st.2 ++ [id]) := rfl

/-- A Go map lookup that answers an element answers one of the list, filed
under the looked-up key. -/
theorem goMapGet_some {α : Type} (key : α → String) (l : List α) (k : String) (x : α)
    (hget : goMapGet key l k = some x) : key x = k ∧ x ∈ l := by
  have h : ∀ (ys : List α) (acc : Option α),
      ys.foldl (fun acc y => if key y = k then some y else acc) acc = some x →
      acc = some x ∨ (key x = k ∧ x ∈ ys) := by
    intro ys
    induction ys with
    | nil =>
      intro acc h
      exact Or.inl h
    | cons y ys ih =>
      intro acc hf
      simp only [List.foldl_cons] at hf
      rcases ih _ hf with h' | h'
      · by_cases hk : key y = k
        · rw [if_pos hk] at h'
          injection h' with h''
          subst h''
          exact Or.inr ⟨hk, List.mem_cons_self _ _⟩
        · rw [if_neg hk] at h'
          exact Or.inl h'
      · exact Or.inr ⟨h'.1, List.mem_cons_of_mem _ h'.2⟩
  rcases h l none hget with h' | h'
  · exact absurd h' (by simp)
  · exact h'

/-- A component whose `(id, ver)` record is found is a key of the graph. -/
theorem getDependencies_mem_graphIds (m : Dependencies) (id ver : String)
    (deps : List Dependee) (h : m.GetDependencies id ver = some deps) :
    id ∈ graphIdsFinset m := by
  unfold Dependencies.GetDependencies at h
  cases hg : goMapGet (fun d => d.ID) m.Dependers id with
  | none => rw [hg] at h; simp at h
  | some depender =>
    obtain ⟨hk, hmem⟩ := goMapGet_some _ _ _ _ hg
    rw [graphIdsFinset, List.mem_toFinset, List.mem_map]
    exact ⟨depender, hmem, hk⟩

/-- Growing the visited set cannot increase the unvisited count. -/
theorem unvisitedCount_le_of_subset (m : Dependencies) {v w : List String}
    (h : v ⊆ w) : unvisitedCount m w ≤ unvisitedCount m v := by
  apply Finset.card_le_card
  intro x hx
  simp only [Finset.mem_filter] at hx ⊢
  exact ⟨hx.1, fun hv => hx.2 (h hv)⟩

/-- Visiting a graph key not yet visited strictly shrinks the unvisited
count. -/
theorem unvisitedCount_lt (m : Dependencies) {v : List String} {id : String}
    (hid : id ∈ graphIdsFinset m) (hnv : id ∉ v) :
    unvisitedCount m (id :: v) < unvisitedCount m v := by
  have hmem : id ∈ (graphIdsFinset m).filter (fun x => x ∉ v) := by
    simp [Finset.mem_filter, hid, hnv]
  have hset : (graphIdsFinset m).filter (fun x => x ∉ id :: v)
      = ((graphIdsFinset m).filter (fun x => x ∉ v)).erase id := by
    ext x
    simp only [Finset.mem_filter, Finset.mem_erase, List.mem_cons]
    tauto
  have hpos : 0 < ((graphIdsFinset m).filter (fun x => x ∉ v)).card :=
    Finset.card_pos.mpr ⟨id, hmem⟩
  rw [unvisitedCount, unvisitedCount, hset, Finset.card_erase_of_mem hmem]
  omega

/-- The canonical fuel is one more than the whole graph's key count. -/
theorem fuelBound_eq (m : Dependencies) : fuelBound m = unvisitedCount m [] + 1 := by
  rw [fuelBound, unvisitedCount, graphIds, graphIdsFinset]
  rw [Finset.filter_true_of_mem (by simp)]
  rw [List.card_toFinset]

/-- The visited set only grows, through `resolveFuel` and through the
dependee fold. -/
theorem resolve_visited_subset (m : Dependencies) :
    ∀ fuel : Nat,
      (∀ id ver st, st.1 ⊆ (resolveFuel m fuel id ver st).1) ∧
      (∀ (deps : List Dependee) (st : List String × List String),
        st.1 ⊆
          (deps.foldl (fun st' dep => resolveFuel m fuel dep.ID dep.Commit st') st).1) := by
  intro fuel
  induction fuel with
  | zero =>
    constructor
    · intro id ver st
      exact List.Subset.refl _
    · intro deps
      induction deps with
      | nil => intro st; exact List.Subset.refl _
      | cons d rest ihd =>
        intro st
        simp only [List.foldl_cons, resolveFuel_zero]
        exact ihd st
  | succ fuel ih =>
    have hP : ∀ id ver st, st.1 ⊆ (resolveFuel m (fuel + 1) id ver st).1 := by
      intro id ver st
      rw [resolveFuel_succ]
      by_cases hid : id ∈ st.1
      · rw [if_pos hid]
        exact List.Subset.refl _
      · rw [if_neg hid]
        cases hg : m.GetDependencies id ver with
        | none => exact List.subset_cons_self _ _
        | some deps =>
          exact List.Subset.trans (List.subset_cons_self id st.1)
            (ih.2 deps (id :: st.1, st.2 ++ [id]))
    refine ⟨hP, ?_⟩
    intro deps
    induction deps with
    | nil => intro st; exact List.Subset.refl _
    | cons d rest ihd =>
      intro st
      simp only [List.foldl_cons]
      exact List.Subset.trans (hP d.ID d.Commit st) (ihd _)

/-- The accumulated result only grows at its end, through `resolveFuel` and
through the dependee fold. -/
theorem resolve_acc_extends (m : Dependencies) :
    ∀ fuel : Nat,
      (∀ id ver st, st.2 <+: (resolveFuel m fuel id ver st).2) ∧
      (∀ (deps : List Dependee) (st : List String × List String),
        st.2 <+:
          (deps.foldl (fun st' dep => resolveFuel m fuel dep.ID dep.Commit st') st).2) := by
  intro fuel
  induction fuel with
  | zero =>
    constructor
    · intro id ver st
      exact List.prefix_refl _
    · intro deps
      induction deps with
      | nil => intro st; exact List.prefix_refl _
      | cons d rest ihd =>
        intro st
        simp only [List.foldl_cons, resolveFuel_zero]
        exact ihd st
  | succ fuel ih =>
    have hP : ∀ id ver st, st.2 <+: (resolveFuel m (fuel + 1) id ver st).2 := by
      intro id ver st
      rw [resolveFuel_succ]
      by_cases hid : id ∈ st.1
      · rw [if_pos hid]
      · rw [if_neg hid]
        cases hg : m.GetDependencies id ver with
        | none => exact List.prefix_append _ _
        | some deps =>
          exact List.IsPrefix.trans (List.prefix_append st.2 [id])
            (ih.2 deps (id :: st.1, st.2 ++ [id]))
    refine ⟨hP, ?_⟩
    intro deps
    induction deps with
    | nil => intro st; exact List.prefix_refl _
    | cons d rest ihd =>
      intro st
      simp only [List.foldl_cons]
      exact List.IsPrefix.trans (hP d.ID d.Commit st) (ihd _)

/-- The running invariant of the Go recursion: the result list has no
duplicate and every id in it is visited. -/
theorem resolve_inv (m : Dependencies) :
    ∀ fuel : Nat,
      (∀ id ver st, st.2.Nodup → (∀ x ∈ st.2, x ∈ st.1) →
        (resolveFuel m fuel id ver st).2.Nodup ∧
          ∀ x ∈ (resolveFuel m fuel id ver st).2, x ∈ (resolveFuel m fuel id ver st).1) ∧
      (∀ (deps : List Dependee) (st : List String × List String),
        st.2.Nodup → (∀ x ∈ st.2, x ∈ st.1) →
        (deps.foldl (fun st' dep => resolveFuel m fuel dep.ID dep.Commit st') st).2.Nodup ∧
          ∀ x ∈ (deps.foldl (fun st' dep => resolveFuel m fuel dep.ID dep.Commit st') st).2,
            x ∈ (deps.foldl (fun st' dep => resolveFuel m fuel dep.ID dep.Commit st') st).1) := by
  intro fuel
  induction fuel with
  | zero =>
    constructor
    · intro id ver st h1 h2
      exact ⟨h1, h2⟩
    · intro deps
      induction deps with
      | nil => intro st h1 h2; exact ⟨h1, h2⟩
      | cons d rest ihd =>
        intro st h1 h2
        simp only [List.foldl_cons, resolveFuel_zero]
        exact ihd st h1 h2
  | succ fuel ih =>
    have hstep : ∀ (id : String) (st : List String × List String),
        id ∉ st.1 → st.2.Nodup → (∀ x ∈ st.2, x ∈ st.1) →
        (st.2 ++ [id]).Nodup ∧ ∀ x ∈ st.2 ++ [id], x ∈ id :: st.1 := by
      intro id st hid h1 h2
      constructor
      · simp only [List.nodup_append, List.nodup_cons, List.nodup_nil, List.disjoint_singleton]
        exact ⟨h1, by simp, fun hmem => hid (h2 id hmem)⟩
      · intro x hx
        rcases List.mem_append.mp hx with hx | hx
        · exact List.mem_cons_of_mem _ (h2 x hx)
        · simp only [List.mem_singleton] at hx
          subst hx
          exact List.mem_cons_self _ _
    have hP : ∀ id ver st, st.2.Nodup → (∀ x ∈ st.2, x ∈ st.1) →
        (resolveFuel m (fuel + 1) id ver st).2.Nodup ∧
          ∀ x ∈ (resolveFuel m (fuel + 1) id ver st).2,
            x ∈ (resolveFuel m (fuel + 1) id ver st).1 := by
      intro id ver st h1 h2
      rw [resolveFuel_succ]
      split
      · exact ⟨h1, h2⟩
      · rename_i hid
        split
        · exact hstep id st hid h1 h2
        · obtain ⟨h1', h2'⟩ := hstep id st hid h1 h2
          exact ih.2 _ _ h1' h2'
    refine ⟨hP, ?_⟩
    intro deps
    induction deps with
    | nil => intro st h1 h2; exact ⟨h1, h2⟩
    | cons d rest ihd =>
      intro st h1 h2
      simp only [List.foldl_cons]
      obtain ⟨h1', h2'⟩ := hP d.ID d.Commit st h1 h2
      exact ihd _ h1' h2'

/-- Fuel beyond the unvisited count changes nothing: one extra unit of fuel
gives the same state, through `resolveFuel` and through the dependee fold. -/
theorem resolve_stable (m : Dependencies) :
    ∀ fuel : Nat,
      (∀ id ver st, unvisitedCount m st.1 < fuel →
        resolveFuel m (fuel + 1) id ver st = resolveFuel m fuel id ver st) ∧
      (∀ (deps : List Dependee) (st : List String × List String),
        unvisitedCount m st.1 < fuel →
        deps.foldl (fun st' dep => resolveFuel m (fuel + 1) dep.ID dep.Commit st') st
          = deps.foldl (fun st' dep => resolveFuel m fuel dep.ID dep.Commit st') st) := by
  intro fuel
  induction fuel with
  | zero =>
    constructor
    · intro id ver st h
      exact absurd h (Nat.not_lt_zero _)
    · intro deps st h
      exact absurd h (Nat.not_lt_zero _)
  | succ fuel ih =>
    have hP : ∀ id ver st, unvisitedCount m st.1 < fuel + 1 →
        resolveFuel m (fuel + 1 + 1) id ver st = resolveFuel m (fuel + 1) id ver st := by
      intro id ver st hcount
      rw [resolveFuel_succ m (fuel + 1), resolveFuel_succ m fuel]
      by_cases hid : id ∈ st.1
      · rw [if_pos hid, if_pos hid]
      · rw [if_neg hid, if_neg hid]
        cases hg : m.GetDependencies id ver with
        | none => rfl
        | some deps =>
          have hlt : unvisitedCount m (id :: st.1) < fuel := by
            have := unvisitedCount_lt m (getDependencies_mem_graphIds m id ver deps hg) hid
            omega
          exact ih.2 deps (id :: st.1, st.2 ++ [id]) hlt
    refine ⟨hP, ?_⟩
    intro deps
    induction deps with
    | nil => intro st h; rfl
    | cons d rest ihd =>
      intro st hcount
      simp only [List.foldl_cons]
      rw [hP d.ID d.Commit st hcount]
      apply ihd
      have hsub := (resolve_visited_subset m (fuel + 1)).1 d.ID d.Commit st
      have := unvisitedCount_le_of_subset m hsub
      omega

/-- C6, amended: resolution terminates (the canonical fuel is enough: any
extra fuel computes the same list), the starting component is appended
first, no component id appears twice, a start whose record is missing
yields just the start, and a dependency whose record is not found is
appended but recursed no further - so the cycle A→B→A resolves to [A, B],
and a graph where A lists B but B has no record also resolves to [A, B],
not [A]. -/
theorem C6_resolution :
    (∀ (m : Dependencies) (id ver : String) (k : Nat),
        (resolveFuel m (fuelBound m + k) id ver ([], [])).2 = ResolveDependencies m id ver) ∧
    (∀ (m : Dependencies) (id ver : String),
        ∃ rest, ResolveDependencies m id ver = id :: rest) ∧
    (∀ (m : Dependencies) (id ver : String), (ResolveDependencies m id ver).Nodup) ∧
    (∀ (m : Dependencies) (id ver : String),
        m.GetDependencies id ver = none → ResolveDependencies m id ver = [id]) ∧
    (ResolveDependencies
        ⟨[⟨"A", [⟨"v", [⟨"B", "v"⟩]⟩]⟩, ⟨"B", [⟨"v", [⟨"A", "v"⟩]⟩]⟩]⟩ "A" "v"
      = ["A", "B"]) ∧
    (ResolveDependencies ⟨[⟨"A", [⟨"v", [⟨"B", "v"⟩]⟩]⟩]⟩ "A" "v" = ["A", "B"]) := by
  refine ⟨?_, ?_, ?_, ?_, by decide, by decide⟩
  · intro m id ver k
    induction k with
    | zero => rfl
    | succ k ih =>
      rw [← ih]
      have hlt : unvisitedCount m ([] : List String) < fuelBound m + k := by
        rw [fuelBound_eq]
        omega
      exact congrArg Prod.snd ((resolve_stable m (fuelBound m + k)).1 id ver ([], []) hlt)
  · intro m id ver
    obtain ⟨n, hn⟩ : ∃ n, fuelBound m = n + 1 := ⟨(graphIds m).length, rfl⟩
    unfold ResolveDependencies
    rw [hn, resolveFuel_succ, if_neg (List.not_mem_nil id)]
    cases hg : m.GetDependencies id ver with
    | none => exact ⟨[], rfl⟩
    | some deps =>
      obtain ⟨rest, hrest⟩ :=
        (resolve_acc_extends m n).2 deps (id :: ([] : List String), ([] : List String) ++ [id])
      exact ⟨rest, hrest.symm⟩
  · intro m id ver
    exact ((resolve_inv m (fuelBound m)).1 id ver (([] : List String), ([] : List String))
      List.nodup_nil (by simp)).1
  · intro m id ver hg
    obtain ⟨n, hn⟩ : ∃ n, fuelBound m = n + 1 := ⟨(graphIds m).length, rfl⟩
    unfold ResolveDependencies
    rw [hn, resolveFuel_succ, if_neg (List.not_mem_nil id), hg]
    rfl

/-- C6 as frozen is false on its own example: when A's record lists a
dependency on B but B has no record, the resolver appends B when it visits
it and only then finds it missing, so the result is [A, B], not [A]. -/
theorem C6_counterexample :
    ¬(ResolveDependencies ⟨[⟨"A", [⟨"v", [⟨"B", "v"⟩]⟩]⟩]⟩ "A" "v" = ["A"]) := by
  decide

/-! # Lemmas about the orchestrator's transition system -/

/-- How `setPhase` changes the set of in-flight items. -/
theorem filter_setPhase {n : Nat} (s : OrchState n) (i : Fin n) (p : FetchPhase) :
    Finset.univ.filter (fun j => (setPhase s i p).phase j = FetchPhase.fetching)
      = if p = FetchPhase.fetching
        then insert i (Finset.univ.filter (fun j => s.phase j = FetchPhase.fetching))
        else (Finset.univ.filter (fun j => s.phase j = FetchPhase.fetching)).erase i := by
  ext j
  rcases eq_or_ne j i with rfl | hj
  · by_cases hp : p = FetchPhase.fetching
    · simp [setPhase, Function.update_same, hp]
    · simp [setPhase, Function.update_same, hp]
  · by_cases hp : p = FetchPhase.fetching
    · simp [setPhase, Function.update_noteq hj, hp, Finset.mem_insert, hj]
    · simp [setPhase, Function.update_noteq hj, hp, Finset.mem_erase, hj]

/-- Acquiring a slot raises the in-flight count by exactly one. -/
theorem inFlight_acquire {n : Nat} (s : OrchState n) (i : Fin n)
    (hp : s.phase i = FetchPhase.pending) :
    inFlight (setPhase s i FetchPhase.fetching) = inFlight s + 1 := by
  rw [inFlight, inFlight, filter_setPhase, if_pos rfl]
  exact Finset.card_insert_of_not_mem (by simp [Finset.mem_filter, hp])

/-- Moving an item to a non-fetching phase cannot raise the in-flight
count. -/
theorem inFlight_setPhase_le {n : Nat} (s : OrchState n) (i : Fin n) (p : FetchPhase)
    (hp : p ≠ FetchPhase.fetching) :
    inFlight (setPhase s i p) ≤ inFlight s := by
  rw [inFlight, inFlight, filter_setPhase, if_neg hp]
  exact Finset.card_erase_le

/-- One step never pushes the in-flight count over the ceiling: `acquire`
is guarded by it and every other step moves an item out of or past the
fetching phase. -/
theorem orchStep_inFlight_le {N n : Nat} {hasCb : Fin n → Bool} {l : OrchLabel n}
    {s t : OrchState n} (h : OrchStep N hasCb l s t) (hle : inFlight s ≤ N) :
    inFlight t ≤ N := by
  cases h with
  | acquire _ i hr hp hlt =>
    rw [inFlight_acquire _ i hp]
    omega
  | release _ i hr hp =>
    exact le_trans (inFlight_setPhase_le _ i _ (by decide)) hle
  | callback _ i hr hp hcb =>
    exact le_trans (inFlight_setPhase_le _ i _ (by decide)) hle
  | ret _ hr hall =>
    exact hle

/-- The in-flight ceiling holds along every run. -/
theorem orchRun_inFlight_le {N n : Nat} {hasCb : Fin n → Bool} {s₀ s : OrchState n}
    {l : List (OrchLabel n)} (hrun : OrchRun N hasCb s₀ l s) (h0 : inFlight s₀ ≤ N) :
    inFlight s ≤ N := by
  induction hrun with
  | nil _ => exact h0
  | cons hstep hrest ih => exact ih (orchStep_inFlight_le hstep h0)

/-- A finished callback stays finished: no step moves an item out of
`done`. -/
theorem orchStep_done_stable {N n : Nat} {hasCb : Fin n → Bool} {l : OrchLabel n}
    {s t : OrchState n} (h : OrchStep N hasCb l s t) (i : Fin n)
    (hd : s.phase i = FetchPhase.done) : t.phase i = FetchPhase.done := by
  cases h with
  | acquire _ j hr hp hlt =>
    rcases eq_or_ne i j with rfl | hij
    · rw [hp] at hd
      exact absurd hd (by decide)
    · rw [setPhase]
      simpa [Function.update_noteq hij] using hd
  | release _ j hr hp =>
    rcases eq_or_ne i j with rfl | hij
    · rw [hp] at hd
      exact absurd hd (by decide)
    · rw [setPhase]
      simpa [Function.update_noteq hij] using hd
  | callback _ j hr hp hcb =>
    rcases eq_or_ne i j with rfl | hij
    · rw [setPhase]
      simp [Function.update_same]
    · rw [setPhase]
      simpa [Function.update_noteq hij] using hd
  | ret _ hr hall =>
    exact hd

/-- Only item `i`'s callback step can finish item `i`'s callback. -/
theorem orchStep_done_of_step {N n : Nat} {hasCb : Fin n → Bool} {l : OrchLabel n}
    {s t : OrchState n} (h : OrchStep N hasCb l s t) (i : Fin n)
    (hnd : s.phase i ≠ FetchPhase.done) (hl : l ≠ OrchLabel.callback i) :
    t.phase i ≠ FetchPhase.done := by
  cases h with
  | acquire _ j hr hp hlt =>
    rcases eq_or_ne i j with rfl | hij
    · rw [setPhase]
      simp [Function.update_same]
    · rw [setPhase]
      simpa [Function.update_noteq hij] using hnd
  | release _ j hr hp =>
    rcases eq_or_ne i j with rfl | hij
    · rw [setPhase]
      simp [Function.update_same]
    · rw [setPhase]
      simpa [Function.update_noteq hij] using hnd
  | callback _ j hr hp hcb =>
    rcases eq_or_ne i j with rfl | hij
    · exact absurd rfl hl
    · rw [setPhase]
      simpa [Function.update_noteq hij] using hnd
  | ret _ hr hall =>
    exact hnd

/-- Counting callback steps along a run: they never outnumber the one
`fetched → done` move item `i` has available. -/
theorem orchRun_count_le {N n : Nat} {hasCb : Fin n → Bool} {s s' : OrchState n}
    {l : List (OrchLabel n)} (hrun : OrchRun N hasCb s l s') (i : Fin n) :
    l.count (OrchLabel.callback i)
        + (if s.phase i = FetchPhase.done then 1 else 0)
      ≤ (if s'.phase i = FetchPhase.done then 1 else 0) := by
  induction hrun with
  | nil _ => simp
  | cons hstep hrest ih =>
    rename_i s t u a ls
    by_cases ha : a = OrchLabel.callback i
    · subst ha
      cases hstep with
      | callback _ _ hr hp hcb =>
        have hcount : (OrchLabel.callback i :: ls).count (OrchLabel.callback i)
            = ls.count (OrchLabel.callback i) + 1 := by
          simp [List.count_cons]
        have hs0 : (if s.phase i = FetchPhase.done then 1 else 0) = 0 := by
          simp [hp]
        have ht1 : (if (setPhase s i FetchPhase.done).phase i = FetchPhase.done
            then 1 else 0) = 1 := by
          simp [setPhase]
        rw [ht1] at ih
        rw [hcount, hs0]
        omega
    · have hcount : (a :: ls).count (OrchLabel.callback i)
          = ls.count (OrchLabel.callback i) := by
        simp [List.count_cons, ha]
      rw [hcount]
      by_cases hd : s.phase i = FetchPhase.done
      · have htd : t.phase i = FetchPhase.done := orchStep_done_stable hstep i hd
        rw [if_pos hd]
        rw [if_pos htd] at ih
        omega
      · rw [if_neg hd]
        by_cases htd : t.phase i = FetchPhase.done
        · rw [if_pos htd] at ih
          omega
        · rw [if_neg htd] at ih
          omega

/-- A callback that did finish was stepped at least once along the run. -/
theorem orchRun_count_ge {N n : Nat} {hasCb : Fin n → Bool} {s s' : OrchState n}
    {l : List (OrchLabel n)} (hrun : OrchRun N hasCb s l s') (i : Fin n) :
    s.phase i ≠ FetchPhase.done → s'.phase i = FetchPhase.done →
    1 ≤ l.count (OrchLabel.callback i) := by
  induction hrun with
  | nil _ =>
    intro h1 h2
    exact absurd h2 h1
  | cons hstep hrest ih =>
    intro h1 h2
    rename_i s t u a ls
    by_cases ha : a = OrchLabel.callback i
    · subst ha
      simp [List.count_cons]
    · have hnd : t.phase i ≠ FetchPhase.done := orchStep_done_of_step hstep i h1 ha
      have hge := ih hnd h2
      have hcount : (a :: ls).count (OrchLabel.callback i)
          = ls.count (OrchLabel.callback i) := by
        simp [List.count_cons, ha]
      omega

/-- One step preserves the return barrier: a returned state is one where
every fetch finished and every supplied callback ran. -/
theorem orchStep_barrier {N n : Nat} {hasCb : Fin n → Bool} {l : OrchLabel n}
    {s t : OrchState n} (h : OrchStep N hasCb l s t)
    (hs : s.returned = true →
      ∀ i, if hasCb i then s.phase i = FetchPhase.done
           else s.phase i = FetchPhase.fetched) :
    t.returned = true →
      ∀ i, if hasCb i then t.phase i = FetchPhase.done
           else t.phase i = FetchPhase.fetched := by
  cases h with
  | acquire _ j hr hp hlt =>
    intro ht
    simp only [setPhase] at ht
    rw [hr] at ht
    exact absurd ht (by decide)
  | release _ j hr hp =>
    intro ht
    simp only [setPhase] at ht
    rw [hr] at ht
    exact absurd ht (by decide)
  | callback _ j hr hp hcb =>
    intro ht
    simp only [setPhase] at ht
    rw [hr] at ht
    exact absurd ht (by decide)
  | ret _ hr hall =>
    intro _
    exact hall

/-- The return barrier holds along every run started before returning. -/
theorem orchRun_barrier {N n : Nat} {hasCb : Fin n → Bool} {s₀ s : OrchState n}
    {l : List (OrchLabel n)} (hrun : OrchRun N hasCb s₀ l s)
    (h0 : s₀.returned = true →
      ∀ i, if hasCb i then s₀.phase i = FetchPhase.done
           else s₀.phase i = FetchPhase.fetched) :
    s.returned = true →
      ∀ i, if hasCb i then s.phase i = FetchPhase.done
           else s.phase i = FetchPhase.fetched := by
  induction hrun with
  | nil _ => exact h0
  | cons hstep hrest ih => exact ih (orchStep_barrier hstep h0)

/-- C9.  On every run of the orchestrator's synchronization skeleton from
its initial state: the number of fetches in flight never exceeds the
ceiling `N`; each item's callback step occurs at most once; once the
orchestrator has returned, each item that supplied a callback had its
callback step exactly once; and a returned state has no fetch pending or
in flight (the join barrier). -/
theorem C9_orchestrator :
    ∀ (N n : Nat) (hasCb : Fin n → Bool) (labels : List (OrchLabel n)) (s : OrchState n),
      OrchRun N hasCb (orchInit n) labels s →
      inFlight s ≤ N ∧
      (∀ i : Fin n, labels.count (OrchLabel.callback i) ≤ 1) ∧
      (s.returned = true → ∀ i : Fin n, hasCb i = true →
        labels.count (OrchLabel.callback i) = 1) ∧
      (s.returned = true → ∀ i : Fin n,
        s.phase i ≠ FetchPhase.pending ∧ s.phase i ≠ FetchPhase.fetching) := by
  intro N n hasCb labels s hrun
  have hin : inFlight (orchInit n) ≤ N := by
    have : inFlight (orchInit n) = 0 := by
      rw [inFlight]
      rw [Finset.filter_false_of_mem (by intro j hj; simp [orchInit])]
      exact Finset.card_empty
    omega
  have hcount_le : ∀ i : Fin n, labels.count (OrchLabel.callback i) ≤ 1 := by
    intro i
    have h := orchRun_count_le hrun i
    have h0 : (if (orchInit n).phase i = FetchPhase.done then 1 else 0) = 0 := by
      simp [orchInit]
    rw [h0] at h
    by_cases hd : s.phase i = FetchPhase.done
    · rw [if_pos hd] at h
      omega
    · rw [if_neg hd] at h
      omega
  have hbarrier := orchRun_barrier hrun (by intro h; simp [orchInit] at h)
  refine ⟨orchRun_inFlight_le hrun hin, hcount_le, ?_, ?_⟩
  · intro hret i hcb
    have hif := hbarrier hret i
    rw [hcb] at hif
    simp only [if_true] at hif
    have hge := orchRun_count_ge hrun i (by simp [orchInit]) hif
    have hle := hcount_le i
    omega
  · intro hret i
    have hif := hbarrier hret i
    by_cases hcb : hasCb i
    · rw [hcb] at hif
      simp only [if_true] at hif
      rw [hif]
      exact ⟨by decide, by decide⟩
    · rw [Bool.not_eq_true] at hcb
      rw [hcb] at hif
      simp only [Bool.false_eq_true, if_false] at hif
      rw [hif]
      exact ⟨by decide, by decide⟩

/-- C9 at a concrete instance: its conclusions at ceiling 5 over 50 items
that all supplied callbacks, on a concrete run. -/
theorem C9_orchestrator_witness :
    inFlight (orchInit 50) ≤ 5 ∧
    (∀ i : Fin 50, ([] : List (OrchLabel 50)).count (OrchLabel.callback i) ≤ 1) ∧
    ((orchInit 50).returned = true → ∀ i : Fin 50, (fun _ : Fin 50 => true) i = true →
      ([] : List (OrchLabel 50)).count (OrchLabel.callback i) = 1) ∧
    ((orchInit 50).returned = true → ∀ i : Fin 50,
      (orchInit 50).phase i ≠ FetchPhase.pending ∧
        (orchInit 50).phase i ≠ FetchPhase.fetching) :=
  C9_orchestrator 5 50 (fun _ => true) [] (orchInit 50) (OrchRun.nil _)

end GoMtb
